import Mathlib

/-!
Verification of the manifest-repository core of the ollama fork
(`src/runner/apple/runner.go`, package `server`).

The embedding models:
* file contents as `List Char` (hashed through their UTF-8 bytes);
* the manifest store as an explicit filesystem value (`FS`) holding files
  keyed by path segments relative to the manifest root, plus a set of
  directories (the shared store root itself is left implicit);
* Go's `encoding/json` encoder/decoder for the `Manifest` structure as an
  executable JSON renderer and parser over characters;
* Go's `crypto/sha256` + `encoding/hex` as an executable SHA-256 over byte
  lists followed by lowercase hex encoding.

Types owned by the repository but not present under `src/` (`model.Name`,
`Layer`, `GetManifestPath`, `PruneDirectory`, `ConfigV2`) are modelled from
the specification; each such definition carries a doc comment saying so.
-/

/-! ### Characters, digits, hex -/

/-- The four JSON whitespace characters (also what Go's decoder skips). -/
def isWs (c : Char) : Bool := c = ' ' || c = '\t' || c = '\n' || c = '\r'

def skipWs : List Char → List Char
  | [] => []
  | c :: rest => if isWs c then skipWs rest else c :: rest

/-- Decimal digit character for `d < 10`. -/
def digitCh (d : Nat) : Char := Char.ofNat (48 + d)

/-- Numeric value of a decimal digit character. -/
def charDigit (c : Char) : Nat := c.toNat - 48

/-- Lowercase hexadecimal digit for a nibble (Go's `encoding/hex` alphabet). -/
def hexDig (d : Nat) : Char := if d < 10 then Char.ofNat (48 + d) else Char.ofNat (87 + d)

/-- Value of a hexadecimal digit character, upper or lower case. -/
def hexVal (c : Char) : Option Nat :=
  if '0' ≤ c ∧ c ≤ '9' then some (c.toNat - 48)
  else if 'a' ≤ c ∧ c ≤ 'f' then some (c.toNat - 87)
  else if 'A' ≤ c ∧ c ≤ 'F' then some (c.toNat - 55)
  else none

/-- Hex encoding of a byte list, two lowercase digits per byte
(Go's `hex.EncodeToString`). -/
def hexChars : List Nat → List Char
  | [] => []
  | b :: t => hexDig (b / 16 % 16) :: hexDig (b % 16) :: hexChars t

def hexEncode (bs : List Nat) : String := ⟨hexChars bs⟩

/-! ### UTF-8 bytes of a character sequence (Go strings and files are byte
sequences; we model text and convert at the hashing boundary). -/

def utf8Char (c : Char) : List Nat :=
  let n := c.toNat
  if n < 128 then [n]
  else if n < 2048 then [192 + n / 64, 128 + n % 64]
  else if n < 65536 then [224 + n / 4096, 128 + n / 64 % 64, 128 + n % 64]
  else [240 + n / 262144, 128 + n / 4096 % 64, 128 + n / 64 % 64, 128 + n % 64]

def utf8Bytes : List Char → List Nat
  | [] => []
  | c :: t => utf8Char c ++ utf8Bytes t

/-! ### SHA-256 (Go `crypto/sha256`), FIPS 180-4, executable over `List Nat`
bytes.  32-bit words are `Nat`s reduced `% 2^32` wherever overflow matters. -/

def w32 (x : Nat) : Nat := x % 4294967296

/-- Right rotation of a 32-bit word by `k` bits. -/
def rotr (k x : Nat) : Nat := x / 2 ^ k + x % 2 ^ k * 2 ^ (32 - k)

/-- 32-bit bitwise complement. -/
def bnot32 (x : Nat) : Nat := x ^^^ 4294967295

def bigSigma0 (x : Nat) : Nat := rotr 2 x ^^^ rotr 13 x ^^^ rotr 22 x
def bigSigma1 (x : Nat) : Nat := rotr 6 x ^^^ rotr 11 x ^^^ rotr 25 x
def smallSigma0 (x : Nat) : Nat := rotr 7 x ^^^ rotr 18 x ^^^ x / 8
def smallSigma1 (x : Nat) : Nat := rotr 17 x ^^^ rotr 19 x ^^^ x / 1024

def shaCh (e f g : Nat) : Nat := e &&& f ^^^ bnot32 e &&& g
def shaMaj (a b c : Nat) : Nat := a &&& b ^^^ a &&& c ^^^ b &&& c

/-- The 64 SHA-256 round constants (cube-root fractions, decimal). -/
def shaK : List Nat :=
  [
   1116352408, 1899447441, 3049323471, 3921009573, 961987163, 1508970993,
   2453635748, 2870763221, 3624381080, 310598401, 607225278, 1426881987,
   1925078388, 2162078206, 2614888103, 3248222580, 3835390401, 4022224774,
   264347078, 604807628, 770255983, 1249150122, 1555081692, 1996064986,
   2554220882, 2821834349, 2952996808, 3210313671, 3336571891, 3584528711,
   113926993, 338241895, 666307205, 773529912, 1294757372, 1396182291,
   1695183700, 1986661051, 2177026350, 2456956037, 2730485921, 2820302411,
   3259730800, 3345764771, 3516065817, 3600352804, 4094571909, 275423344,
   430227734, 506948616, 659060556, 883997877, 958139571, 1322822218,
   1537002063, 1747873779, 1955562222, 2024104815, 2227730452, 2361852424,
   2428436474, 2756734187, 3204031479, 3329325298]

/-- Initial hash value (square-root fractions, decimal). -/
def shaH0 : List Nat :=
  [
   1779033703, 3144134277, 1013904242, 2773480762,
   1359893119, 2600822924, 528734635, 1541459225]

/-- Big-endian 8-byte encoding of the bit length. -/
def lenBytes8 (n : Nat) : List Nat :=
  [n / 2 ^ 56 % 256, n / 2 ^ 48 % 256, n / 2 ^ 40 % 256, n / 2 ^ 32 % 256,
   n / 2 ^ 24 % 256, n / 2 ^ 16 % 256, n / 2 ^ 8 % 256, n % 256]

/-- SHA-256 padding: `0x80`, zeros to 56 mod 64, then the 64-bit bit length. -/
def shaPad (msg : List Nat) : List Nat :=
  msg ++ 128 :: List.replicate ((64 - (msg.length + 9) % 64) % 64) 0 ++ lenBytes8 (8 * msg.length)

/-- Group bytes into big-endian 32-bit words. -/
def toWords : List Nat → List Nat
  | b0 :: b1 :: b2 :: b3 :: t => (b0 * 16777216 + b1 * 65536 + b2 * 256 + b3) :: toWords t
  | _ => []

/-- Extend the 16 message words with `k` further schedule words. -/
def extendW (ws : List Nat) : Nat → List Nat
  | 0 => ws
  | k + 1 =>
    let i := ws.length
    let next := w32 (smallSigma1 (ws.getD (i - 2) 0) + ws.getD (i - 7) 0 +
                     smallSigma0 (ws.getD (i - 15) 0) + ws.getD (i - 16) 0)
    extendW (ws ++ [next]) k

/-- One compression round. -/
def shaRound (st : Nat × Nat × Nat × Nat × Nat × Nat × Nat × Nat) (kw : Nat × Nat) :
    Nat × Nat × Nat × Nat × Nat × Nat × Nat × Nat :=
  match st, kw with
  | (a, b, c, d, e, f, g, h), (k, w) =>
    let t1 := w32 (h + bigSigma1 e + shaCh e f g + k + w)
    let t2 := w32 (bigSigma0 a + shaMaj a b c)
    (w32 (t1 + t2), a, b, c, w32 (d + t1), e, f, g)

/-- Compress one 64-byte block into the running hash words. -/
def shaCompress (H : List Nat) (block : List Nat) : List Nat :=
  let ws := extendW (toWords block) 48
  match (shaK.zip ws).foldl shaRound
      (H.getD 0 0, H.getD 1 0, H.getD 2 0, H.getD 3 0, H.getD 4 0, H.getD 5 0, H.getD 6 0, H.getD 7 0) with
  | (a, b, c, d, e, f, g, h) =>
    [w32 (H.getD 0 0 + a), w32 (H.getD 1 0 + b), w32 (H.getD 2 0 + c), w32 (H.getD 3 0 + d),
     w32 (H.getD 4 0 + e), w32 (H.getD 5 0 + f), w32 (H.getD 6 0 + g), w32 (H.getD 7 0 + h)]

/-- Fold the compression function over the given number of 64-byte blocks
(padded input always has a multiple of 64 bytes). -/
def shaIter : Nat → List Nat → List Nat → List Nat
  | 0, H, _ => H
  | k + 1, H, bytes => shaIter k (shaCompress H (bytes.take 64)) (bytes.drop 64)

/-- Big-endian bytes of a 32-bit word. -/
def wordBytes (w : Nat) : List Nat := [w / 16777216 % 256, w / 65536 % 256, w / 256 % 256, w % 256]

def wordsToBytes : List Nat → List Nat
  | [] => []
  | w :: t => wordBytes w ++ wordsToBytes t

/-- SHA-256 digest (32 bytes) of a byte list. -/
def sha256Bytes (msg : List Nat) : List Nat :=
  wordsToBytes (shaIter ((shaPad msg).length / 64) shaH0 (shaPad msg))

/-- Hex-encoded SHA-256 of file content: what the digest computer in
`ParseNamedManifest` (a `sha256` hash observing the decoder's reads through a
`TeeReader`) reports for a file with these characters. -/
def computeDigest (content : List Char) : String := hexEncode (sha256Bytes (utf8Bytes content))

/-! ### JSON values

Model of the fragment of Go's `encoding/json` exercised by the manifest
store: objects, arrays, strings, integer numbers, booleans and null.
(Modelling notes: numbers are decoded with the integer grammar only —
fractional/exponent forms, which never appear in manifest files written by
this code, are rejected rather than parsed; object keys are matched exactly,
not case-insensitively; both differences are invisible to the claims.) -/

inductive JVal where
  | jnull : JVal
  | jbool : Bool → JVal
  | jnum : Int → JVal
  | jstr : List Char → JVal
  | jarr : List JVal → JVal
  | jobj : List (List Char × JVal) → JVal

open JVal

/-! #### Rendering (Go's `json.Encoder`, compact output, HTML escaping on) -/

/-- Escape one character the way Go's encoder does inside a JSON string:
quote, backslash, the short control escapes, other control characters,
the HTML-sensitive characters and U+2028/U+2029 as `\uXXXX`. -/
def escChar (c : Char) : List Char :=
  if c = '"' then ['\\', '"']
  else if c = '\\' then ['\\', '\\']
  else if c = '\n' then ['\\', 'n']
  else if c = '\r' then ['\\', 'r']
  else if c = '\t' then ['\\', 't']
  else if c.toNat < 32 ∨ c = '<' ∨ c = '>' ∨ c = '&' ∨ c.toNat = 8232 ∨ c.toNat = 8233 then
    ['\\', 'u', hexDig (c.toNat / 4096 % 16), hexDig (c.toNat / 256 % 16),
     hexDig (c.toNat / 16 % 16), hexDig (c.toNat % 16)]
  else [c]

def escChars : List Char → List Char
  | [] => []
  | c :: t => escChar c ++ escChars t

/-- Decimal digits of a natural number, most significant first. -/
def natChars (n : Nat) : List Char :=
  if n = 0 then ['0'] else ((Nat.digits 10 n).reverse).map digitCh

/-- Rendering of an `int64` (sign and decimal digits, as Go marshals it). -/
def renderInt : Int → List Char
  | Int.ofNat n => natChars n
  | Int.negSucc n => '-' :: natChars (n + 1)

mutual

def renderJ : JVal → List Char
  | jnull => ['n', 'u', 'l', 'l']
  | jbool true => ['t', 'r', 'u', 'e']
  | jbool false => ['f', 'a', 'l', 's', 'e']
  | jnum i => renderInt i
  | jstr s => '"' :: (escChars s ++ ['"'])
  | jarr vs => '[' :: (renderElems vs ++ [']'])
  | jobj fs => Char.ofNat 123 :: (renderMembers fs ++ [Char.ofNat 125])

def renderElems : List JVal → List Char
  | [] => []
  | [v] => renderJ v
  | v :: vs => renderJ v ++ ',' :: renderElems vs

def renderMembers : List (List Char × JVal) → List Char
  | [] => []
  | [(k, v)] => '"' :: (escChars k ++ '"' :: ':' :: renderJ v)
  | (k, v) :: fs => ('"' :: (escChars k ++ '"' :: ':' :: renderJ v)) ++ ',' :: renderMembers fs

end

/-! #### Parsing (Go's `json.Decoder` reading one value) -/

/-- Inverse of a simple escape. -/
def unescSimple (e : Char) : Option Char :=
  if e = '"' then some '"'
  else if e = '\\' then some '\\'
  else if e = '/' then some '/'
  else if e = 'b' then some (Char.ofNat 8)
  else if e = 'f' then some (Char.ofNat 12)
  else if e = 'n' then some '\n'
  else if e = 'r' then some '\r'
  else if e = 't' then some '\t'
  else none

def hex4 (h1 h2 h3 h4 : Char) : Option Nat := do
  let v1 ← hexVal h1
  let v2 ← hexVal h2
  let v3 ← hexVal h3
  let v4 ← hexVal h4
  some (4096 * v1 + 256 * v2 + 16 * v3 + v4)

/-- Character for a decoded `\uXXXX` value (invalid scalar values become
U+FFFD, as in Go). -/
def uChar (n : Nat) : Char := if n.isValidChar then Char.ofNat n else Char.ofNat 65533

/-- Parse the body of a JSON string after the opening quote; returns the
content and the remainder after the closing quote.  Raw control characters
are rejected, as in Go. -/
def parseStr : List Char → Option (List Char × List Char)
  | [] => none
  | c :: cs =>
    if c = '"' then some ([], cs)
    else if c = '\\' then
      match cs with
      | [] => none
      | e :: cs' =>
        if e = 'u' then
          match cs' with
          | h1 :: h2 :: h3 :: h4 :: cs'' =>
            match hex4 h1 h2 h3 h4, parseStr cs'' with
            | some n, some (s, r) => some (uChar n :: s, r)
            | _, _ => none
          | _ => none
        else
          match unescSimple e, parseStr cs' with
          | some c', some (s, r) => some (c' :: s, r)
          | _, _ => none
    else if c.toNat < 32 then none
    else
      match parseStr cs with
      | some (s, r) => some (c :: s, r)
      | none => none

/-- Greedily parse a nonempty run of decimal digits. -/
def parseNatFrom (cs : List Char) : Option (Nat × List Char) :=
  let ds := cs.takeWhile Char.isDigit
  if ds.isEmpty then none
  else some (ds.foldl (fun a c => 10 * a + charDigit c) 0, cs.dropWhile Char.isDigit)

/-- Parse a JSON integer (optional minus sign). -/
def parseNum : List Char → Option (Int × List Char)
  | [] => none
  | c :: cs =>
    if c = '-' then (parseNatFrom cs).map fun p => (-(p.1 : Int), p.2)
    else (parseNatFrom (c :: cs)).map fun p => ((p.1 : Int), p.2)

mutual

/-- Parse one JSON value; `fuel` bounds the recursion depth and loop count
(callers pass more fuel than the input length, so it never runs out on
inputs the grammar accepts). -/
def parseVal : Nat → List Char → Option (JVal × List Char)
  | 0, _ => none
  | fuel + 1, cs =>
    match skipWs cs with
    | [] => none
    | c :: rest =>
      if c = Char.ofNat 123 then
        match skipWs rest with
        | d :: rest2 =>
          if d = Char.ofNat 125 then some (jobj [], rest2)
          else (parseMembers fuel rest).map fun p => (jobj p.1, p.2)
        | [] => none
      else if c = '[' then
        match skipWs rest with
        | d :: rest2 =>
          if d = ']' then some (jarr [], rest2)
          else (parseElems fuel rest).map fun p => (jarr p.1, p.2)
        | [] => none
      else if c = '"' then
        (parseStr rest).map fun p => (jstr p.1, p.2)
      else if c = 't' then
        if rest.take 3 = ['r', 'u', 'e'] then some (jbool true, rest.drop 3) else none
      else if c = 'f' then
        if rest.take 4 = ['a', 'l', 's', 'e'] then some (jbool false, rest.drop 4) else none
      else if c = 'n' then
        if rest.take 3 = ['u', 'l', 'l'] then some (jnull, rest.drop 3) else none
      else if c = '-' ∨ c.isDigit then
        (parseNum (c :: rest)).map fun p => (jnum p.1, p.2)
      else none

/-- Parse the members of a nonempty object, starting after the `{`. -/
def parseMembers : Nat → List Char → Option (List (List Char × JVal) × List Char)
  | 0, _ => none
  | fuel + 1, cs =>
    match skipWs cs with
    | '"' :: r1 =>
      match parseStr r1 with
      | none => none
      | some (k, r2) =>
        match skipWs r2 with
        | ':' :: r3 =>
          match parseVal fuel r3 with
          | none => none
          | some (v, r4) =>
            match skipWs r4 with
            | ',' :: r5 => (parseMembers fuel r5).map fun p => ((k, v) :: p.1, p.2)
            | d :: r5 => if d = Char.ofNat 125 then some ([(k, v)], r5) else none
            | [] => none
        | _ => none
    | _ => none

/-- Parse the elements of a nonempty array, starting after the `[`. -/
def parseElems : Nat → List Char → Option (List JVal × List Char)
  | 0, _ => none
  | fuel + 1, cs =>
    match parseVal fuel cs with
    | none => none
    | some (v, r) =>
      match skipWs r with
      | ',' :: r2 => (parseElems fuel r2).map fun p => (v :: p.1, p.2)
      | ']' :: r2 => some ([v], r2)
      | _ => none

end

/-! ### Names

Modelled from the spec: the `model.Name` type (package `types/model`) is not
under `src/`.  Per §3/§4.1 it is a validated triple (namespace, repository,
tag); only fully-qualified names resolve to a store path, and resolution and
path parsing are inverse deterministic maps.  A part is taken to be valid
when it is nonempty and free of the path and digest separators `/` and `:`. -/

structure Name where
  Namespace : String
  Repository : String
  Tag : String
deriving DecidableEq

/-- Modelled from the spec: a name is fully qualified when none of
namespace/repository/tag is missing. -/
def Name.IsFullyQualified (n : Name) : Bool :=
  n.Namespace ≠ "" && n.Repository ≠ "" && n.Tag ≠ ""

/-- Modelled from the spec: part validity for names parsed back from paths. -/
def validPart (s : String) : Bool := s ≠ "" && s.data.all fun c => c ≠ '/' && c ≠ ':'

def Name.IsValid (n : Name) : Bool :=
  validPart n.Namespace && validPart n.Repository && validPart n.Tag

/-- Modelled from the spec: the relative store path of a fully-qualified
name, the three parts in fixed order (`resolve`). -/
def Name.filepathSegs (n : Name) : List String := [n.Namespace, n.Repository, n.Tag]

/-- Modelled from the spec: `parseFromPath`, inverse of `resolve`; a path
without the expected three-segment shape yields an invalid (empty) name.
This is `model.ParseNameFromFilepath`. -/
def ParseNameFromFilepath : List String → Name
  | [a, b, c] => ⟨a, b, c⟩
  | _ => ⟨"", "", ""⟩

/-- Modelled from the spec: `model.ParseName` on a bare model name fills the
default namespace and tag, giving a fully-qualified built-in name. -/
def parseName (s : String) : Name := ⟨"library", s, "latest"⟩

/-! ### Layers and manifests -/

/-- Modelled from the spec: the `Layer` value type (digest, media type, byte
size) is declared elsewhere in package `server`, not under `src/`.  `Size`
is an `int64`; no arithmetic in the modelled code can overflow it, so it is
embedded as `Int`. -/
structure Layer where
  MediaType : String
  Digest : String
  Size : Int
deriving DecidableEq

def defaultLayer : Layer := { MediaType := "", Digest := "", Size := 0 }

/-- The `Manifest` struct of `src/runner/apple/runner.go`.  The JSON-visible
fields are `SchemaVersion`, `MediaType`, `Config`, `Layers` and (untagged,
hence serialized under its Go field name) `IsAppleFoundationModel`; the
unexported fields `filepath` and `digest` are provenance set after decoding.
The unexported `fi` field (an `os.FileInfo`) carries stat metadata and
modification times, which are outside this model. -/
structure Manifest where
  SchemaVersion : Int
  MediaType : String
  Config : Layer
  Layers : List Layer
  IsAppleFoundationModel : Bool
  filepath : List String
  digest : String
deriving DecidableEq

/-- The zero `Manifest` that `var m Manifest` starts from before decoding. -/
def emptyManifest : Manifest :=
  { SchemaVersion := 0, MediaType := "", Config := defaultLayer, Layers := [],
    IsAppleFoundationModel := false, filepath := [], digest := "" }

/-! ### Decoding a manifest from JSON (Go `json.Decoder.Decode(&m)`) -/

/-- Fold one object member into a `Layer` (unknown keys ignored, `null`
leaves the current value, wrong kinds fail). -/
def layerSetField (cur : Layer) (kv : List Char × JVal) : Option Layer :=
  if kv.1 = "mediaType".data then
    match kv.2 with
    | jstr s => some { cur with MediaType := ⟨s⟩ }
    | jnull => some cur
    | _ => none
  else if kv.1 = "digest".data then
    match kv.2 with
    | jstr s => some { cur with Digest := ⟨s⟩ }
    | jnull => some cur
    | _ => none
  else if kv.1 = "size".data then
    match kv.2 with
    | jnum n => some { cur with Size := n }
    | jnull => some cur
    | _ => none
  else some cur

/-- Decode a JSON value into a `Layer`, merging into `cur` (Go unmarshals
objects into the existing struct value; `null` is a no-op). -/
def layerFromJVal (cur : Layer) : JVal → Option Layer
  | jobj fs => fs.foldlM layerSetField cur
  | jnull => some cur
  | _ => none

/-- Decode a JSON array into a layer list, each element into a fresh zero
`Layer` (as Go decodes `[]Layer`). -/
def layersFromArr : List JVal → Option (List Layer)
  | [] => some []
  | v :: vs =>
    match layerFromJVal defaultLayer v, layersFromArr vs with
    | some l, some ls => some (l :: ls)
    | _, _ => none

/-- Fold one object member into a `Manifest`. -/
def manifestSetField (cur : Manifest) (kv : List Char × JVal) : Option Manifest :=
  if kv.1 = "schemaVersion".data then
    match kv.2 with
    | jnum n => some { cur with SchemaVersion := n }
    | jnull => some cur
    | _ => none
  else if kv.1 = "mediaType".data then
    match kv.2 with
    | jstr s => some { cur with MediaType := ⟨s⟩ }
    | jnull => some cur
    | _ => none
  else if kv.1 = "config".data then
    (layerFromJVal cur.Config kv.2).map fun l => { cur with Config := l }
  else if kv.1 = "layers".data then
    match kv.2 with
    | jarr vs => (layersFromArr vs).map fun ls => { cur with Layers := ls }
    | jnull => some cur
    | _ => none
  else if kv.1 = "IsAppleFoundationModel".data then
    match kv.2 with
    | jbool b => some { cur with IsAppleFoundationModel := b }
    | jnull => some cur
    | _ => none
  else some cur

/-- Decode a parsed JSON value into a `Manifest` (top level must be an
object or `null`, as when Go unmarshals into a struct). -/
def manifestFromJVal : JVal → Option Manifest
  | jobj fs => fs.foldlM manifestSetField emptyManifest
  | jnull => some emptyManifest
  | _ => none

/-- Go's `json.NewDecoder(f).Decode(&m)`: parse one JSON value from the
front of the file (content after the value is not part of the value and is
ignored by a single `Decode` call) and decode it into a `Manifest`. -/
def decodeManifest (cs : List Char) : Option Manifest :=
  match parseVal (2 * cs.length + 8) cs with
  | some (v, _) => manifestFromJVal v
  | none => none

/-! ### Encoding a manifest to JSON (Go `json.Encoder.Encode`) -/

/-- JSON value of a `Layer`, fields in struct order. -/
def layerToJVal (l : Layer) : JVal :=
  jobj [("mediaType".data, jstr l.MediaType.data),
        ("digest".data, jstr l.Digest.data),
        ("size".data, jnum l.Size)]

/-- JSON value of the manifest object `WriteManifest` builds, fields in
struct order (the untagged `IsAppleFoundationModel` included). -/
def manifestToJVal (sv : Int) (mt : String) (config : Layer) (layers : List Layer)
    (apple : Bool) : JVal :=
  jobj [("schemaVersion".data, jnum sv),
        ("mediaType".data, jstr mt.data),
        ("config".data, layerToJVal config),
        ("layers".data, jarr (layers.map layerToJVal)),
        ("IsAppleFoundationModel".data, jbool apple)]

/-- The bytes `json.NewEncoder(f).Encode(m)` writes: compact JSON followed
by a newline. -/
def renderManifestFile (sv : Int) (mt : String) (config : Layer) (layers : List Layer)
    (apple : Bool) : List Char :=
  renderJ (manifestToJVal sv mt config layers apple) ++ ['\n']

/-! ### Errors (§7 of the spec names the kinds) -/

inductive Err where
  /-- `model.Unqualified(n)`: name missing a required part. -/
  | unqualified : Name → Err
  /-- `os.Open`/`os.Remove` on a missing path. -/
  | notFound : List String → Err
  /-- The file exists but does not decode as a manifest (`Corrupt`). -/
  | decodeFail : Err
  /-- An `os.Stat` failure during listing, with the failing path. -/
  | statErr : List String → String → Err
  /-- `Manifests`: a glob match whose relative path gives an invalid name. -/
  | badName : List String → Err
  /-- `Manifests`: wrapping of a per-entry parse error with its name. -/
  | badParse : Name → Err → Err
  /-- The spec's `Protected` kind (mutation of a synthetic manifest). -/
  | protectedErr : Err
deriving DecidableEq

/-! ### The filesystem under the manifest root

Files are keyed by their path segments relative to the manifest root
returned by `GetManifestPath` (modelled from the spec as a pure store-root
lookup).  Directories are tracked only as a set of paths so that `MkdirAll`
and pruning are observable. -/

structure FS where
  files : List (List String × List Char)
  dirs : List (List String)
deriving DecidableEq

def emptyFS : FS := ⟨[], []⟩

def fsRead (fs : FS) (p : List String) : Option (List Char) :=
  (fs.files.find? fun q => q.1 = p).map Prod.snd

def fsWrite (fs : FS) (p : List String) (c : List Char) : FS :=
  { fs with files := (p, c) :: fs.files.filter fun q => q.1 ≠ p }

/-- `os.Remove`: fails with a not-found error when the path names no file;
the empty path (a manifest with empty `filepath`, e.g. a synthetic one)
never names a file. -/
def fsRemove (fs : FS) (p : List String) : Except Err FS :=
  if p = [] then .error (.notFound [])
  else if fs.files.any fun q => q.1 = p then
    .ok { fs with files := fs.files.filter fun q => q.1 ≠ p }
  else .error (.notFound p)

/-- The proper ancestors of a path, shallowest first (`MkdirAll` on the
parent directory creates them all). -/
def ancestorsOf (p : List String) : List (List String) :=
  (List.range (p.length - 1)).map fun i => p.take (i + 1)

def mkdirAll (fs : FS) (ds : List (List String)) : FS := { fs with dirs := ds ++ fs.dirs }

/-- Modelled from the spec: `PruneDirectory` (not under `src/`) removes
now-empty directories under the store root; files are never touched. -/
def PruneDirectory (fs : FS) : FS :=
  { fs with dirs := fs.dirs.filter fun d => fs.files.any fun q => q.1.take d.length = d }

/-! ### The manifest store (`src/runner/apple/runner.go`, package `server`) -/

/-- `Manifest.Size`: sum of the sizes over `append(m.Layers, m.Config)`. -/
def Manifest.Size (m : Manifest) : Int :=
  ((m.Layers ++ [m.Config]).foldl (fun size layer => size + layer.Size) 0)

/-- Modelled from the spec: `resolve` — `name.Filepath()` under the store
root.  `model.Name.Filepath` is not under `src/`; per §4.1 resolution fails
with `Unqualified` when any part is missing (in the Go sources this failure
is a panic inside `Filepath`). -/
def Name.filepathE (n : Name) : Except Err (List String) :=
  if n.IsFullyQualified then .ok n.filepathSegs else .error (.unqualified n)

/-- `ParseNamedManifest`: reject unqualified names before any filesystem
access, open the file at the resolved path, decode it while hashing the
bytes read, and return the manifest with provenance attached. -/
def ParseNamedManifest (n : Name) (fs : FS) : Except Err Manifest :=
  if !n.IsFullyQualified then .error (.unqualified n)
  else
    match fsRead fs n.filepathSegs with
    | none => .error (.notFound n.filepathSegs)
    | some content =>
      match decodeManifest content with
      | none => .error .decodeFail
      | some m =>
        .ok { m with filepath := n.filepathSegs, digest := computeDigest content }

/-- `WriteManifest`: resolve the path, create the parent directories, and
write the manifest object (`schemaVersion=2`, the fixed distribution media
type, the given config and layers) as JSON, overwriting any existing file.
Returns the error outcome together with the (possibly updated) filesystem. -/
def WriteManifest (name : Name) (config : Layer) (layers : List Layer) (fs : FS) :
    Except Err Unit × FS :=
  match name.filepathE with
  | .error e => (.error e, fs)
  | .ok p =>
    let fs1 := mkdirAll fs (ancestorsOf p)
    let content := renderManifestFile 2 "application/vnd.docker.distribution.manifest.v2+json"
        config layers false
    (.ok (), fsWrite fs1 p content)

/-- `Manifest.Remove`: remove the manifest's own file, then prune
now-empty directories under the store root. -/
def Manifest.Remove (m : Manifest) (fs : FS) : Except Err Unit × FS :=
  match fsRemove fs m.filepath with
  | .error e => (.error e, fs)
  | .ok fs1 => (.ok (), PruneDirectory fs1)

/-! ### Listing (`Manifests`) -/

deriving instance DecidableEq for Except

/-- One glob match of `<root>/*/*/*` during `Manifests`: the path relative
to the store root, and what `os.Stat` answers for it — an error (the file
may have vanished between glob and stat) or whether it is a directory. -/
structure MatchEntry where
  rel : List String
  stat : Except String Bool
deriving DecidableEq

def statOk : Except String Bool → Bool
  | .ok _ => true
  | .error _ => false

/-- What the loop body of `Manifests` does with one glob match. -/
inductive StepRes where
  | fatal : Err → StepRes
  | skip : StepRes
  | add : Name → Manifest → StepRes
  | bad : Err → StepRes
deriving DecidableEq

/-- The per-match logic of `Manifests`: a stat failure is returned
unconditionally; directories are skipped; an invalid name or a failed parse
is an entry error (fatal only when `continueOnError` is false).
`filepath.Rel` of a glob match under the root cannot fail and is the
identity on these relative paths. -/
def stepOf (fs : FS) (e : MatchEntry) : StepRes :=
  match e.stat with
  | .error msg => .fatal (.statErr e.rel msg)
  | .ok true => .skip
  | .ok false =>
    let n := ParseNameFromFilepath e.rel
    if n.IsValid then
      match ParseNamedManifest n fs with
      | .ok m => .add n m
      | .error pe => .bad (.badParse n pe)
    else .bad (.badName e.rel)

/-- The result map `map[model.Name]*Manifest`, as an association list where
insertion overwrites the previous binding of the same name. -/
abbrev MMap := List (Name × Manifest)

def lookupM (ms : MMap) (n : Name) : Option Manifest :=
  ((ms : List (Name × Manifest)).find? fun p => p.1 = n).map Prod.snd

def insertM (n : Name) (m : Manifest) (ms : MMap) : MMap :=
  ((n, m) :: (ms : List (Name × Manifest)).filter fun p => p.1 ≠ n : List (Name × Manifest))

/-- The enumeration loop of `Manifests` over the glob matches. -/
def collectMatches (continueOnError : Bool) (fs : FS) : List MatchEntry → MMap → Except Err MMap
  | [], acc => .ok acc
  | e :: rest, acc =>
    match stepOf fs e with
    | .fatal er => .error er
    | .skip => collectMatches continueOnError fs rest acc
    | .add n m => collectMatches continueOnError fs rest (insertM n m acc)
    | .bad er =>
      if continueOnError then collectMatches continueOnError fs rest acc
      else .error er

/-! ### Synthetic manifests (`createAppleManifests`) -/

/-- `GenerateFakeDigest`: hex-encoded SHA-256 of the literal
`"apple:" + name` — note, with no `<algorithm>:` prefix. -/
def GenerateFakeDigest (name : String) : String :=
  hexEncode (sha256Bytes (utf8Bytes ("apple:" ++ name).data))

/-- Modelled from the spec: the JSON bytes `json.Marshal` produces for the
`ConfigV2` value built in `createAppleManifests` (`ConfigV2` is declared
elsewhere in package `server`, not under `src/`; only the byte length of
this blob is observable, as the config layer's `Size`). -/
def appleConfigData : List Char :=
  ("\x7b\"model_format\":\"apple\",\"model_family\":\"apple\",\"model_families\":[\"apple\"]," ++
   "\"model_type\":\"apple\",\"file_type\":\"apple\",\"architecture\":\"amd64\",\"os\":\"linux\"," ++
   "\"rootfs\":\x7b\"type\":\"layers\"\x7d\x7d").data

/-- The template layer bytes, verbatim from `createAppleManifests`. -/
def appleTemplateData : List Char :=
  ("\x7b\x7b if .System \x7d\x7d<|im_start|>system\n\x7b\x7b .System \x7d\x7d<|im_end|>\n" ++
   "\x7b\x7b end \x7d\x7d\x7b\x7b if .Prompt \x7d\x7d<|im_start|>user\n" ++
   "\x7b\x7b .Prompt \x7d\x7d<|im_end|>\n<|im_start|>assistant\n" ++
   "\x7b\x7b end \x7d\x7d\x7b\x7b .Response \x7d\x7d<|im_end|>").data

/-- The one synthetic manifest `createAppleManifests` constructs: config and
data layers all carry `GenerateFakeDigest "apple"`; the manifest-level
`digest` is left empty (the assignment is commented out in the source) and
`filepath` is set to the empty string. -/
def appleManifest : Manifest :=
  { SchemaVersion := 2,
    MediaType := "application/vnd.docker.distribution.manifest.v2+json",
    Config := { MediaType := "application/vnd.ollama.image.config",
                Digest := GenerateFakeDigest "apple",
                Size := (appleConfigData.length : Int) },
    Layers := [{ MediaType := "application/vnd.ollama.image.applefoundationmodel",
                 Digest := GenerateFakeDigest "apple",
                 Size := 1048576 },
               { MediaType := "application/vnd.ollama.image.template",
                 Digest := GenerateFakeDigest "apple",
                 Size := (appleTemplateData.length : Int) }],
    IsAppleFoundationModel := true,
    filepath := [],
    digest := "" }

/-- `createAppleManifests`: the synthetic manifests keyed by their names
(`model.ParseName("apple")` is valid, and nothing else in the function can
fail, so the error returns of the Go function are unreachable). -/
def createAppleManifests : List (Name × Manifest) := [(parseName "apple", appleManifest)]

/-- `Manifests(continueOnError)`: enumerate the glob matches, then, when the
synthetic-models flag is set (the `OLLAMA_ENABLE_APPLE_FOUNDATION_MODEL`
environment variable, modelled as the explicit argument `appleEnabled`),
merge in the synthetic manifests, overwriting same-named real entries. -/
def Manifests (continueOnError appleEnabled : Bool) (fs : FS) (entries : List MatchEntry) :
    Except Err MMap :=
  match collectMatches continueOnError fs entries [] with
  | .error e => .error e
  | .ok ms =>
    if appleEnabled then
      .ok (createAppleManifests.foldl (fun acc p => insertM p.1 p.2 acc) ms)
    else .ok ms

/-! ## Supporting lemmas -/

theorem foldl_add_size (ls : List Layer) (a : Int) :
    ls.foldl (fun size layer => size + layer.Size) a = a + (ls.map Layer.Size).sum := by
  induction ls generalizing a with
  | nil => simp
  | cons l t ih => simp [List.foldl_cons, ih]; ring

theorem lookupM_insert_self (n : Name) (m : Manifest) (ms : MMap) :
    lookupM (insertM n m ms) n = some m := by
  simp [lookupM, insertM, List.find?]

theorem find?_filter_ne (t : List (Name × Manifest)) (n n' : Name) (h : n' ≠ n) :
    List.find? (fun p => decide (p.1 = n')) (t.filter fun p => decide (p.1 ≠ n)) =
      List.find? (fun p => decide (p.1 = n')) t := by
  induction t with
  | nil => rfl
  | cons q t ih =>
    by_cases hq : q.1 = n
    · have h1 : (decide (q.1 ≠ n)) = false := by simp [hq]
      have h2 : (decide (q.1 = n')) = false := by simp [hq]; exact fun hc => h hc.symm
      rw [List.filter_cons, h1]
      simp only [Bool.false_eq_true, if_false]
      rw [List.find?_cons_of_neg _ (by simp [h2]), ih]
    · have h1 : (decide (q.1 ≠ n)) = true := by simp [hq]
      rw [List.filter_cons, h1]
      simp only [if_true]
      by_cases hq' : q.1 = n'
      · rw [List.find?_cons_of_pos _ (by simp [hq']), List.find?_cons_of_pos _ (by simp [hq'])]
      · rw [List.find?_cons_of_neg _ (by simp [hq']), List.find?_cons_of_neg _ (by simp [hq']), ih]

theorem lookupM_insert_ne (n n' : Name) (m : Manifest) (ms : MMap) (h : n' ≠ n) :
    lookupM (insertM n m ms) n' = lookupM ms n' := by
  have hhead : ((n, m).1 = n') = False := by simp; exact fun hc => h hc.symm
  simp only [lookupM, insertM]
  rw [List.find?_cons_of_neg _ (by simp [hhead])]
  rw [find?_filter_ne ms n n' h]

theorem lookupM_isSome_insert (n n' : Name) (m : Manifest) (ms : MMap)
    (h : (lookupM ms n').isSome) : (lookupM (insertM n m ms) n').isSome := by
  by_cases he : n' = n
  · subst he; rw [lookupM_insert_self]; rfl
  · rw [lookupM_insert_ne _ _ _ _ he]; exact h

/-- Inversion: a loop step only adds a binding for a file entry whose
relative path parses to a valid name whose manifest parses. -/
theorem stepOf_eq_add {fs : FS} {e : MatchEntry} {n : Name} {m : Manifest}
    (h : stepOf fs e = .add n m) :
    e.stat = .ok false ∧ ParseNameFromFilepath e.rel = n ∧ n.IsValid ∧
      ParseNamedManifest n fs = .ok m := by
  unfold stepOf at h
  match hstat : e.stat with
  | .error msg => rw [hstat] at h; exact absurd h (by simp)
  | .ok true => rw [hstat] at h; exact absurd h (by simp)
  | .ok false =>
    rw [hstat] at h
    simp only at h
    by_cases hv : (ParseNameFromFilepath e.rel).IsValid
    · rw [if_pos hv] at h
      match hp : ParseNamedManifest (ParseNameFromFilepath e.rel) fs with
      | .ok m' =>
        rw [hp] at h
        simp only [StepRes.add.injEq] at h
        exact ⟨rfl, h.1, h.1 ▸ hv, h.1 ▸ (h.2 ▸ hp)⟩
      | .error pe => rw [hp] at h; exact absurd h (by simp)
    · rw [if_neg hv] at h; exact absurd h (by simp)

/-- Construction: a file entry with a valid name and a successful parse
steps to `add`. -/
theorem stepOf_add_of {fs : FS} {e : MatchEntry} {m : Manifest}
    (hstat : e.stat = .ok false) (hv : (ParseNameFromFilepath e.rel).IsValid)
    (hp : ParseNamedManifest (ParseNameFromFilepath e.rel) fs = .ok m) :
    stepOf fs e = .add (ParseNameFromFilepath e.rel) m := by
  unfold stepOf; rw [hstat]; simp [hv, hp]

theorem stepOf_fatal_of {fs : FS} {e : MatchEntry} {msg : String}
    (hstat : e.stat = .error msg) : stepOf fs e = .fatal (.statErr e.rel msg) := by
  unfold stepOf; rw [hstat]

theorem stepOf_badName_of {fs : FS} {e : MatchEntry}
    (hstat : e.stat = .ok false) (hv : ¬ (ParseNameFromFilepath e.rel).IsValid) :
    stepOf fs e = .bad (.badName e.rel) := by
  unfold stepOf; rw [hstat]; simp [hv]

theorem stepOf_badParse_of {fs : FS} {e : MatchEntry} {pe : Err}
    (hstat : e.stat = .ok false) (hv : (ParseNameFromFilepath e.rel).IsValid)
    (hp : ParseNamedManifest (ParseNameFromFilepath e.rel) fs = .error pe) :
    stepOf fs e = .bad (.badParse (ParseNameFromFilepath e.rel) pe) := by
  unfold stepOf; rw [hstat]; simp [hv, hp]

/-- The loop of `Manifests` processes an appended list by processing the
first part and continuing with what it accumulated. -/
theorem collectMatches_append (t : Bool) (fs : FS) (xs ys : List MatchEntry) (acc : MMap) :
    collectMatches t fs (xs ++ ys) acc =
      match collectMatches t fs xs acc with
      | .ok acc1 => collectMatches t fs ys acc1
      | .error e => .error e := by
  induction xs generalizing acc with
  | nil => simp [collectMatches]
  | cons e rest ih =>
    simp only [List.cons_append, collectMatches]
    cases stepOf fs e with
    | fatal er => rfl
    | skip => exact ih acc
    | add n m => exact ih _
    | bad er =>
      by_cases ht : t
      · simp only [if_pos ht]; exact ih acc
      · simp [if_neg ht]

/-- Origin of a binding in the accumulated map: it was already in the
accumulator, or some processed file entry put it there. -/
theorem collect_origin (t : Bool) (fs : FS) (ms : List MatchEntry) :
    ∀ acc res, collectMatches t fs ms acc = .ok res →
      ∀ n m, lookupM res n = some m →
        lookupM acc n = some m ∨ ∃ e ∈ ms, stepOf fs e = .add n m := by
  induction ms with
  | nil =>
    intro acc res hok n m hl
    simp only [collectMatches, Except.ok.injEq] at hok
    subst hok; exact Or.inl hl
  | cons e rest ih =>
    intro acc res hok n m hl
    simp only [collectMatches] at hok
    cases hstep : stepOf fs e with
    | fatal er => rw [hstep] at hok; exact absurd hok (by simp)
    | skip =>
      rw [hstep] at hok
      rcases ih acc res hok n m hl with h | ⟨e', he', hs⟩
      · exact Or.inl h
      · exact Or.inr ⟨e', List.mem_cons_of_mem _ he', hs⟩
    | add n' m' =>
      rw [hstep] at hok
      rcases ih _ res hok n m hl with h | ⟨e', he', hs⟩
      · by_cases hn : n = n'
        · subst hn
          rw [lookupM_insert_self] at h
          exact Or.inr ⟨e, List.mem_cons_self e rest, by rw [hstep, Option.some_inj.mp h]⟩
        · rw [lookupM_insert_ne _ _ _ _ hn] at h
          exact Or.inl h
      · exact Or.inr ⟨e', List.mem_cons_of_mem _ he', hs⟩
    | bad er =>
      rw [hstep] at hok
      cases ht : t with
      | true =>
        subst ht; simp only [if_true] at hok
        rcases ih acc res hok n m hl with h | ⟨e', he', hs⟩
        · exact Or.inl h
        · exact Or.inr ⟨e', List.mem_cons_of_mem _ he', hs⟩
      | false => rw [ht] at hok; exact absurd hok (by simp)

/-- Once a name is bound in the accumulator it stays bound. -/
theorem collect_preserves (t : Bool) (fs : FS) (ms : List MatchEntry) :
    ∀ acc res n, collectMatches t fs ms acc = .ok res →
      (lookupM acc n).isSome → (lookupM res n).isSome := by
  induction ms with
  | nil =>
    intro acc res n hok h
    simp only [collectMatches, Except.ok.injEq] at hok
    subst hok; exact h
  | cons e rest ih =>
    intro acc res n hok h
    simp only [collectMatches] at hok
    cases hstep : stepOf fs e with
    | fatal er => rw [hstep] at hok; exact absurd hok (by simp)
    | skip => rw [hstep] at hok; exact ih acc res n hok h
    | add n' m' =>
      rw [hstep] at hok
      exact ih _ res n hok (lookupM_isSome_insert _ _ _ _ h)
    | bad er =>
      rw [hstep] at hok
      cases ht : t with
      | true => subst ht; simp only [if_true] at hok; exact ih acc res n hok h
      | false => rw [ht] at hok; exact absurd hok (by simp)

/-- A processed file entry's name is bound in the result. -/
theorem collect_presence (t : Bool) (fs : FS) (ms : List MatchEntry) :
    ∀ acc res, collectMatches t fs ms acc = .ok res →
      ∀ e ∈ ms, ∀ n m, stepOf fs e = .add n m → (lookupM res n).isSome := by
  induction ms with
  | nil => intro acc res _ e he; exact absurd he (List.not_mem_nil e)
  | cons e0 rest ih =>
    intro acc res hok e he n m hstep
    simp only [collectMatches] at hok
    rcases List.mem_cons.mp he with he0 | hrest
    · subst he0
      rw [hstep] at hok
      exact collect_preserves t fs rest _ res n hok (by rw [lookupM_insert_self]; rfl)
    · cases hstep0 : stepOf fs e0 with
      | fatal er => rw [hstep0] at hok; exact absurd hok (by simp)
      | skip => rw [hstep0] at hok; exact ih acc res hok e hrest n m hstep
      | add n' m' => rw [hstep0] at hok; exact ih _ res hok e hrest n m hstep
      | bad er =>
        rw [hstep0] at hok
        cases ht : t with
        | true => subst ht; simp only [if_true] at hok; exact ih acc res hok e hrest n m hstep
        | false => rw [ht] at hok; exact absurd hok (by simp)

/-- In tolerant mode the loop cannot fail unless a stat fails. -/
theorem collect_ok_of_statOk (fs : FS) (ms : List MatchEntry) :
    ∀ acc, (∀ e ∈ ms, statOk e.stat) →
      ∃ res, collectMatches true fs ms acc = .ok res := by
  induction ms with
  | nil => intro acc _; exact ⟨acc, rfl⟩
  | cons e rest ih =>
    intro acc hstat
    have hrest : ∀ e' ∈ rest, statOk e'.stat :=
      fun e' he' => hstat e' (List.mem_cons_of_mem _ he')
    have he : statOk e.stat := hstat e (List.mem_cons_self e rest)
    simp only [collectMatches]
    cases hstep : stepOf fs e with
    | fatal er =>
      exfalso
      unfold stepOf at hstep
      match hs : e.stat with
      | .error msg => rw [hs] at he; exact absurd he (by simp [statOk])
      | .ok true => rw [hs] at hstep; exact absurd hstep (by simp)
      | .ok false =>
        rw [hs] at hstep
        simp only at hstep
        by_cases hv : (ParseNameFromFilepath e.rel).IsValid
        · rw [if_pos hv] at hstep
          cases hp : ParseNamedManifest (ParseNameFromFilepath e.rel) fs <;>
            rw [hp] at hstep <;> exact absurd hstep (by simp)
        · rw [if_neg hv] at hstep; exact absurd hstep (by simp)
    | skip => exact ih acc hrest
    | add n m => exact ih _ hrest
    | bad er => simp only [if_true]; exact ih acc hrest

/-! ## Claims C5, C6, C7, C8, C9 -/

/-- C5: for every Manifest `m`, `m.Size()` equals `m.Config.Size` plus the
sum of `layer.Size` over all layers in `m.Layers`. -/
theorem claim_C5 (m : Manifest) :
    m.Size = m.Config.Size + (m.Layers.map Layer.Size).sum := by
  unfold Manifest.Size
  rw [foldl_add_size]
  simp
  ring

/-- C6: `ParseNamedManifest` fails `Unqualified` on a name missing any part
— uniformly in the filesystem, i.e. without any filesystem access; fails
not-found when no file is at the resolved path of a fully-qualified name;
and fails with a decode error when the file exists but does not decode. -/
theorem claim_C6 :
    (∀ (n : Name) (fs : FS), n.IsFullyQualified = false →
       ParseNamedManifest n fs = .error (.unqualified n)) ∧
    (∀ (n : Name) (fs : FS), n.IsFullyQualified = true →
       fsRead fs n.filepathSegs = none →
       ParseNamedManifest n fs = .error (.notFound n.filepathSegs)) ∧
    (∀ (n : Name) (fs : FS) (content : List Char), n.IsFullyQualified = true →
       fsRead fs n.filepathSegs = some content →
       decodeManifest content = none →
       ParseNamedManifest n fs = .error .decodeFail) := by
  refine ⟨fun n fs h => ?_, fun n fs h hread => ?_, fun n fs content h hread hdec => ?_⟩
  · simp [ParseNamedManifest, h]
  · simp [ParseNamedManifest, h, hread]
  · simp [ParseNamedManifest, h, hread, hdec]

/-- C6 witness: the three failure modes at concrete inputs. -/
theorem claim_C6_witness :
    ParseNamedManifest ⟨"", "demo", "latest"⟩ emptyFS =
      .error (.unqualified ⟨"", "demo", "latest"⟩) ∧
    ParseNamedManifest ⟨"library", "demo", "latest"⟩ emptyFS =
      .error (.notFound ["library", "demo", "latest"]) ∧
    ParseNamedManifest ⟨"library", "demo", "latest"⟩
        ⟨[(["library", "demo", "latest"], "nope".data)], []⟩ =
      .error .decodeFail :=
  ⟨claim_C6.1 _ _ (by decide),
   claim_C6.2.1 _ _ (by decide) rfl,
   claim_C6.2.2 _ _ "nope".data (by decide) rfl (by decide)⟩

/-- C7: `WriteManifest` on a name missing any of namespace/repository/tag
fails `Unqualified` (the failure of the spec-modelled path resolver, §4.1)
and leaves the filesystem — files and directories alike — unchanged. -/
theorem claim_C7 (n : Name) (config : Layer) (layers : List Layer) (fs : FS)
    (h : n.IsFullyQualified = false) :
    WriteManifest n config layers fs = (.error (.unqualified n), fs) := by
  simp [WriteManifest, Name.filepathE, h]

/-- C7 witness: an unqualified write at a concrete input. -/
theorem claim_C7_witness :
    WriteManifest ⟨"library", "", "latest"⟩ defaultLayer [] emptyFS =
      (.error (.unqualified ⟨"library", "", "latest"⟩), emptyFS) :=
  claim_C7 _ _ _ _ (by decide)

/-- C8 counterexample: `Remove` on the synthetic manifest does not fail with
a `Protected` error (it fails with the not-found error of removing the empty
path), refuting the claim as stated. -/
theorem claim_C8_counterexample :
    ¬ (appleManifest.Remove emptyFS).1 = .error .protectedErr := by
  decide

/-- C8 (amended): `Remove` on the synthetic manifest produced by
`createAppleManifests` — whose `filepath` is empty — fails with the
not-found error of removing the empty path, and deletes nothing: the
filesystem is returned unchanged.  The error is not a distinguished
`Protected` kind. -/
theorem claim_C8_amended (fs : FS) :
    appleManifest.Remove fs = (.error (.notFound []), fs) := rfl

/-- C9: a stat failure on a glob-matched path aborts the whole `Manifests`
call with that error, for either value of the tolerant flag (and either
value of the synthetic flag), provided enumeration reaches it. -/
theorem claim_C9 (t flag : Bool) (fs : FS) (pre : List MatchEntry) (e : MatchEntry)
    (rest : List MatchEntry) (msg : String) (acc1 : MMap)
    (hpre : collectMatches t fs pre [] = .ok acc1) (hstat : e.stat = .error msg) :
    Manifests t flag fs (pre ++ e :: rest) = .error (.statErr e.rel msg) := by
  unfold Manifests
  rw [collectMatches_append, hpre]
  simp [collectMatches, stepOf_fatal_of hstat]

/-- C9 witness: a stat failure aborts even in tolerant mode. -/
theorem claim_C9_witness :
    Manifests true false emptyFS [⟨["a", "b", "c"], .error "gone"⟩] =
      .error (.statErr ["a", "b", "c"] "gone") :=
  claim_C9 true false emptyFS [] ⟨["a", "b", "c"], .error "gone"⟩ [] "gone" [] rfl rfl

/-! ## Claims C3 and C4 -/

/-- C3: during enumeration, a glob match with an invalid name or a failing
parse aborts the whole call with that first error when the tolerant flag is
false; when it is true such entries are skipped, the call succeeds (absent
stat failures, which C9 covers), and every readable manifest is still in
the returned mapping. -/
theorem claim_C3 :
    (∀ (flag : Bool) (fs : FS) (pre : List MatchEntry) (e : MatchEntry)
       (rest : List MatchEntry) (acc1 : MMap),
       collectMatches false fs pre [] = .ok acc1 →
       e.stat = .ok false → (ParseNameFromFilepath e.rel).IsValid = false →
       Manifests false flag fs (pre ++ e :: rest) = .error (.badName e.rel)) ∧
    (∀ (flag : Bool) (fs : FS) (pre : List MatchEntry) (e : MatchEntry)
       (rest : List MatchEntry) (acc1 : MMap) (pe : Err),
       collectMatches false fs pre [] = .ok acc1 →
       e.stat = .ok false → (ParseNameFromFilepath e.rel).IsValid = true →
       ParseNamedManifest (ParseNameFromFilepath e.rel) fs = .error pe →
       Manifests false flag fs (pre ++ e :: rest) =
         .error (.badParse (ParseNameFromFilepath e.rel) pe)) ∧
    (∀ (fs : FS) (entries : List MatchEntry),
       (∀ e ∈ entries, statOk e.stat = true) →
       ∃ res, Manifests true false fs entries = .ok res ∧
         ∀ e ∈ entries, e.stat = .ok false →
           (ParseNameFromFilepath e.rel).IsValid = true →
           ∀ m, ParseNamedManifest (ParseNameFromFilepath e.rel) fs = .ok m →
             lookupM res (ParseNameFromFilepath e.rel) = some m) := by
  refine ⟨?_, ?_, ?_⟩
  · intro flag fs pre e rest acc1 hpre hstat hv
    unfold Manifests
    rw [collectMatches_append, hpre]
    simp [collectMatches, stepOf_badName_of hstat (by simp [hv])]
  · intro flag fs pre e rest acc1 pe hpre hstat hv hp
    unfold Manifests
    rw [collectMatches_append, hpre]
    simp [collectMatches, stepOf_badParse_of hstat (by simp [hv]) hp]
  · intro fs entries hstat
    obtain ⟨res, hok⟩ := collect_ok_of_statOk fs entries [] hstat
    refine ⟨res, ?_, ?_⟩
    · unfold Manifests; rw [hok]; simp
    · intro e he hef hv m hp
      have hadd := stepOf_add_of hef (by simp [hv]) hp
      have hsome := collect_presence true fs entries [] res hok e he _ _ hadd
      obtain ⟨m', hm'⟩ := Option.isSome_iff_exists.mp hsome
      rcases collect_origin true fs entries [] res hok _ m' hm' with hacc | ⟨e', _, hs'⟩
      · simp [lookupM] at hacc
      · obtain ⟨_, _, _, hp'⟩ := stepOf_eq_add hs'
        rw [hm', Option.some_inj]
        rw [hp'] at hp
        exact Except.ok.inj hp

/-- C3 witness: a store with one corrupt manifest file — non-tolerant
listing aborts with the wrapped parse error; and an invalid name aborts
with the bad-name error. -/
theorem claim_C3_witness :
    Manifests false false ⟨[(["a", "b", "c"], "nope".data)], []⟩
        [⟨["a", "b", "c"], .ok false⟩] =
      .error (.badParse ⟨"a", "b", "c"⟩ .decodeFail) ∧
    Manifests false false emptyFS [⟨["a", "b:", "c"], .ok false⟩] =
      .error (.badName ["a", "b:", "c"]) :=
  ⟨claim_C3.2.1 false _ [] _ [] [] .decodeFail rfl rfl (by decide) (by decide),
   claim_C3.1 false emptyFS [] _ [] [] rfl rfl (by decide)⟩

/-- C4: with the synthetic flag enabled, a successful `Manifests` call maps
the synthetic name to the synthetic manifest (marker set), whatever real
manifests were collected — the synthetic entry overwrites; with the flag
disabled, every binding in the result is backed by a real file entry whose
manifest parsed. -/
theorem claim_C4 :
    (∀ (t : Bool) (fs : FS) (entries : List MatchEntry) (res : MMap),
       Manifests t true fs entries = .ok res →
       lookupM res (parseName "apple") = some appleManifest ∧
         appleManifest.IsAppleFoundationModel = true) ∧
    (∀ (t : Bool) (fs : FS) (entries : List MatchEntry) (res : MMap),
       Manifests t false fs entries = .ok res →
       ∀ n m, lookupM res n = some m →
         ∃ e ∈ entries, e.stat = .ok false ∧ ParseNameFromFilepath e.rel = n ∧
           n.IsValid = true ∧ ParseNamedManifest n fs = .ok m) := by
  constructor
  · intro t fs entries res hok
    unfold Manifests at hok
    cases hc : collectMatches t fs entries [] with
    | error e => rw [hc] at hok; exact absurd hok (by simp)
    | ok ms =>
      rw [hc] at hok
      simp only [if_true, Except.ok.injEq] at hok
      subst hok
      exact ⟨lookupM_insert_self _ _ _, rfl⟩
  · intro t fs entries res hok n m hl
    unfold Manifests at hok
    cases hc : collectMatches t fs entries [] with
    | error e => rw [hc] at hok; exact absurd hok (by simp)
    | ok ms =>
      rw [hc] at hok
      simp only [Bool.false_eq_true, if_false, Except.ok.injEq] at hok
      subst hok
      rcases collect_origin t fs entries [] ms hc n m hl with hacc | ⟨e, he, hs⟩
      · simp [lookupM] at hacc
      · obtain ⟨hstat, hname, hv, hp⟩ := stepOf_eq_add hs
        exact ⟨e, he, hstat, hname, by simp [hv], hp⟩

/-- C4 witness: with the flag enabled on an empty store the synthetic
manifest is returned under its name, marker set. -/
theorem claim_C4_witness :
    lookupM [(parseName "apple", appleManifest)] (parseName "apple") = some appleManifest ∧
      appleManifest.IsAppleFoundationModel = true :=
  claim_C4.1 true emptyFS [] [(parseName "apple", appleManifest)] rfl

/-! ## Claim C2: the digest contract -/

theorem hexDig_inj (a b : Nat) (ha : a < 16) (hb : b < 16) :
    hexDig a = hexDig b → a = b := by
  interval_cases a <;> interval_cases b <;> decide

theorem hexChars_inj : ∀ bs1 bs2 : List Nat, (∀ b ∈ bs1, b < 256) → (∀ b ∈ bs2, b < 256) →
    hexChars bs1 = hexChars bs2 → bs1 = bs2 := by
  intro bs1
  induction bs1 with
  | nil => intro bs2 _ _ h; cases bs2 with
    | nil => rfl
    | cons b t => exact absurd h (by simp [hexChars])
  | cons b t ih =>
    intro bs2 h1 h2 h
    cases bs2 with
    | nil => exact absurd h (by simp [hexChars])
    | cons b' t' =>
      simp only [hexChars, List.cons.injEq] at h
      obtain ⟨e1, e2, e3⟩ := h
      have hb : b < 256 := h1 b (by simp)
      have hb' : b' < 256 := h2 b' (by simp)
      have q1 : b / 16 % 16 = b' / 16 % 16 :=
        hexDig_inj _ _ (Nat.mod_lt _ (by norm_num)) (Nat.mod_lt _ (by norm_num)) e1
      have q2 : b % 16 = b' % 16 :=
        hexDig_inj _ _ (Nat.mod_lt _ (by norm_num)) (Nat.mod_lt _ (by norm_num)) e2
      have : b = b' := by omega
      exact this ▸ congrArg _ (ih t' (fun x hx => h1 x (by simp [hx])) (fun x hx => h2 x (by simp [hx])) e3)

theorem wordsToBytes_lt : ∀ ws : List Nat, ∀ b ∈ wordsToBytes ws, b < 256 := by
  intro ws
  induction ws with
  | nil => intro b hb; exact absurd hb (by simp [wordsToBytes])
  | cons w t ih =>
    intro b hb
    simp only [wordsToBytes, wordBytes] at hb
    rcases List.mem_append.mp hb with hb | hb
    · have hd : b = w / 16777216 % 256 ∨ b = w / 65536 % 256 ∨ b = w / 256 % 256 ∨
          b = w % 256 := by simpa using hb
      rcases hd with h | h | h | h <;> omega
    · exact ih b hb

theorem sha256Bytes_lt (msg : List Nat) : ∀ b ∈ sha256Bytes msg, b < 256 :=
  fun b hb => wordsToBytes_lt _ b hb

/-- On success, `ParseNamedManifest` reports as digest the hex-encoded
SHA-256 of exactly the file bytes the decoder consumed. -/
theorem parse_ok_digest {n : Name} {fs : FS} {m : Manifest}
    (h : ParseNamedManifest n fs = .ok m) :
    ∃ content, fsRead fs n.filepathSegs = some content ∧
      m.digest = computeDigest content := by
  unfold ParseNamedManifest at h
  split at h
  · exact absurd h (by simp)
  · split at h
    · exact absurd h (by simp)
    · rename_i content heq
      split at h
      · exact absurd h (by simp)
      · exact ⟨content, heq, by rw [← Except.ok.inj h]⟩

/-- C2: the digest reported by `ParseNamedManifest` is the hex-encoded
256-bit hash of exactly the bytes read from the file, so (a) it is
deterministic in those bytes: byte-identical files give identical digests;
and (b) it tracks raw bytes, not decoded structure: two files with
different bytes but equal decodings report different digests whenever their
hashes differ (byte-distinct inputs with colliding SHA-256 values are not
constructible in practice; the witness exhibits concrete whitespace
variants with differing digests). -/
theorem claim_C2 :
    (∀ (n : Name) (fs : FS) (m : Manifest), ParseNamedManifest n fs = .ok m →
       ∃ content, fsRead fs n.filepathSegs = some content ∧
         m.digest = hexEncode (sha256Bytes (utf8Bytes content))) ∧
    (∀ (n1 n2 : Name) (fs1 fs2 : FS) (m1 m2 : Manifest) (content : List Char),
       ParseNamedManifest n1 fs1 = .ok m1 → ParseNamedManifest n2 fs2 = .ok m2 →
       fsRead fs1 n1.filepathSegs = some content →
       fsRead fs2 n2.filepathSegs = some content →
       m1.digest = m2.digest) ∧
    (∀ (n1 n2 : Name) (fs1 fs2 : FS) (m1 m2 : Manifest) (c1 c2 : List Char),
       ParseNamedManifest n1 fs1 = .ok m1 → ParseNamedManifest n2 fs2 = .ok m2 →
       fsRead fs1 n1.filepathSegs = some c1 →
       fsRead fs2 n2.filepathSegs = some c2 →
       decodeManifest c1 = decodeManifest c2 → c1 ≠ c2 →
       sha256Bytes (utf8Bytes c1) ≠ sha256Bytes (utf8Bytes c2) →
       m1.digest ≠ m2.digest) := by
  refine ⟨?_, ?_, ?_⟩
  · intro n fs m h
    exact parse_ok_digest h
  · intro n1 n2 fs1 fs2 m1 m2 content h1 h2 hr1 hr2
    obtain ⟨c1, hc1, hd1⟩ := parse_ok_digest h1
    obtain ⟨c2, hc2, hd2⟩ := parse_ok_digest h2
    rw [hr1] at hc1; rw [hr2] at hc2
    rw [hd1, hd2, ← Option.some_inj.mp hc1, ← Option.some_inj.mp hc2]
  · intro n1 n2 fs1 fs2 m1 m2 c1 c2 h1 h2 hr1 hr2 _ _ hsha
    obtain ⟨c1', hc1, hd1⟩ := parse_ok_digest h1
    obtain ⟨c2', hc2, hd2⟩ := parse_ok_digest h2
    rw [hr1] at hc1; rw [hr2] at hc2
    rw [hd1, hd2, Option.some_inj.mp hc1.symm, Option.some_inj.mp hc2.symm]
    intro heq
    unfold computeDigest hexEncode at heq
    injection heq with hch
    exact hsha (hexChars_inj _ _ (sha256Bytes_lt _) (sha256Bytes_lt _) hch)

/-- The two whitespace variants used to witness C2. -/
def c2content1 : List Char := "\x7b\x7d".data

def c2content2 : List Char := " \x7b\x7d".data

def c2fs1 : FS := ⟨[(["l", "m", "t"], c2content1)], []⟩

def c2fs2 : FS := ⟨[(["l", "m", "t"], c2content2)], []⟩

def c2m1 : Manifest :=
  { emptyManifest with filepath := ["l", "m", "t"], digest := computeDigest c2content1 }

def c2m2 : Manifest :=
  { emptyManifest with filepath := ["l", "m", "t"], digest := computeDigest c2content2 }

/-- C2 witness: two files that decode to the same structure but differ in
whitespace are reported with different digests. -/
theorem claim_C2_witness : c2m1.digest ≠ c2m2.digest :=
  claim_C2.2.2 ⟨"l", "m", "t"⟩ ⟨"l", "m", "t"⟩ c2fs1 c2fs2 c2m1 c2m2 c2content1 c2content2
    rfl rfl rfl rfl (by decide) (by decide) (by decide)

/-! ## Claim C10: the synthetic manifests' digests -/

theorem hexDig_ne_colon (d : Nat) (hd : d < 16) : hexDig d ≠ ':' := by
  interval_cases d <;> decide

theorem hexChars_ne_colon : ∀ bs : List Nat, ∀ c ∈ hexChars bs, c ≠ ':' := by
  intro bs
  induction bs with
  | nil => intro c hc; exact absurd hc (by simp [hexChars])
  | cons b t ih =>
    intro c hc
    simp only [hexChars, List.mem_cons] at hc
    rcases hc with h | h | h
    · exact h ▸ hexDig_ne_colon _ (Nat.mod_lt _ (by norm_num))
    · exact h ▸ hexDig_ne_colon _ (Nat.mod_lt _ (by norm_num))
    · exact ih c h

/-- C10: `createAppleManifests` produces exactly the one synthetic
manifest; its manifest-level `digest` is empty and its `filepath` is empty;
its config layer and both data layers all carry the identical digest
`hex(sha256("apple:apple"))`; and that digest string contains no `:`, hence
no `<algorithm>:` prefix. -/
theorem claim_C10 :
    createAppleManifests = [(parseName "apple", appleManifest)] ∧
    appleManifest.digest = "" ∧
    appleManifest.filepath = [] ∧
    appleManifest.Config.Digest = hexEncode (sha256Bytes (utf8Bytes "apple:apple".data)) ∧
    appleManifest.Layers.map Layer.Digest =
      [hexEncode (sha256Bytes (utf8Bytes "apple:apple".data)),
       hexEncode (sha256Bytes (utf8Bytes "apple:apple".data))] ∧
    (appleManifest.Config.Digest).data.all (fun c => c != ':') = true := by
  refine ⟨rfl, rfl, rfl, rfl, rfl, ?_⟩
  refine List.all_eq_true.mpr fun c hc => ?_
  exact bne_iff_ne.mpr (hexChars_ne_colon _ c hc)

/-! ## Claim C1: encode/decode round trip.  First: strings. -/

theorem hexVal_hexDig (d : Nat) (hd : d < 16) : hexVal (hexDig d) = some d := by
  interval_cases d <;> decide

theorem char_toNat_isValidChar (c : Char) : c.toNat.isValidChar := by
  have h := c.valid
  simpa [Char.toNat, UInt32.isValidChar] using h

theorem uChar_toNat (c : Char) : uChar c.toNat = c := by
  unfold uChar
  rw [if_pos (char_toNat_isValidChar c)]
  exact Char.ofNat_toNat c

theorem parseStr_escChars (s : List Char) (rest : List Char) :
    parseStr (escChars s ++ '"' :: rest) = some (s, rest) := by
  induction s with
  | nil =>
    show parseStr ('"' :: rest) = some ([], rest)
    rw [parseStr.eq_def]
    simp
  | cons c t ih =>
    show parseStr ((escChar c ++ escChars t) ++ '"' :: rest) = some (c :: t, rest)
    by_cases h1 : c = '"'
    · subst h1
      rw [show escChar '"' = ['\\', '"'] from rfl]
      simp only [List.cons_append, List.nil_append]
      rw [parseStr.eq_def]
      simp [unescSimple, ih]
    · by_cases h2 : c = '\\'
      · subst h2
        rw [show escChar '\\' = ['\\', '\\'] from rfl]
        simp only [List.cons_append, List.nil_append]
        rw [parseStr.eq_def]
        simp [unescSimple, ih]
      · by_cases h3 : c = '\n'
        · subst h3
          rw [show escChar '\n' = ['\\', 'n'] from rfl]
          simp only [List.cons_append, List.nil_append]
          rw [parseStr.eq_def]
          simp [unescSimple, ih]
        · by_cases h4 : c = '\r'
          · subst h4
            rw [show escChar '\r' = ['\\', 'r'] from rfl]
            simp only [List.cons_append, List.nil_append]
            rw [parseStr.eq_def]
            simp [unescSimple, ih]
          · by_cases h5 : c = '\t'
            · subst h5
              rw [show escChar '\t' = ['\\', 't'] from rfl]
              simp only [List.cons_append, List.nil_append]
              rw [parseStr.eq_def]
              simp [unescSimple, ih]
            · by_cases h6 : c.toNat < 32 ∨ c = '<' ∨ c = '>' ∨ c = '&' ∨
                  c.toNat = 8232 ∨ c.toNat = 8233
              · have hesc : escChar c =
                    ['\\', 'u', hexDig (c.toNat / 4096 % 16), hexDig (c.toNat / 256 % 16),
                     hexDig (c.toNat / 16 % 16), hexDig (c.toNat % 16)] := by
                  unfold escChar
                  rw [if_neg h1, if_neg h2, if_neg h3, if_neg h4, if_neg h5, if_pos h6]
                have hlt : c.toNat < 65536 := by
                  rcases h6 with h | h | h | h | h | h
                  · omega
                  · subst h; decide
                  · subst h; decide
                  · subst h; decide
                  · omega
                  · omega
                have hn : 4096 * (c.toNat / 4096 % 16) + 256 * (c.toNat / 256 % 16) +
                    16 * (c.toNat / 16 % 16) + c.toNat % 16 = c.toNat := by omega
                have e1 := hexVal_hexDig (c.toNat / 4096 % 16) (Nat.mod_lt _ (by norm_num))
                have e2 := hexVal_hexDig (c.toNat / 256 % 16) (Nat.mod_lt _ (by norm_num))
                have e3 := hexVal_hexDig (c.toNat / 16 % 16) (Nat.mod_lt _ (by norm_num))
                have e4 := hexVal_hexDig (c.toNat % 16) (Nat.mod_lt _ (by norm_num))
                rw [hesc]
                simp only [List.cons_append, List.nil_append]
                rw [parseStr.eq_def]
                simp [hex4, e1, e2, e3, e4, ih, hn, uChar_toNat]
              · have hesc : escChar c = [c] := by
                  unfold escChar
                  rw [if_neg h1, if_neg h2, if_neg h3, if_neg h4, if_neg h5, if_neg h6]
                have h32 : ¬ c.toNat < 32 := fun hh => h6 (Or.inl hh)
                rw [hesc]
                simp only [List.cons_append, List.nil_append]
                rw [parseStr.eq_def]
                simp only []
                rw [if_neg h1, if_neg h2, if_neg h32, ih]

/-! Numbers. -/

/-- A remainder that cannot extend a greedily parsed number. -/
def goodRest : List Char → Prop
  | [] => True
  | c :: _ => c.isDigit = false

theorem digitCh_isDigit (d : Nat) (h : d < 10) : (digitCh d).isDigit = true := by
  interval_cases d <;> decide

theorem charDigit_digitCh (d : Nat) (h : d < 10) : charDigit (digitCh d) = d := by
  interval_cases d <;> decide

theorem natChars_digits (n : Nat) : ∀ c ∈ natChars n, c.isDigit = true := by
  unfold natChars
  by_cases h : n = 0
  · rw [if_pos h]; intro c hc; simp at hc; subst hc; decide
  · rw [if_neg h]
    intro c hc
    simp only [List.mem_map, List.mem_reverse] at hc
    obtain ⟨d, hd, rfl⟩ := hc
    exact digitCh_isDigit d (Nat.digits_lt_base (by norm_num) hd)

theorem natChars_ne_nil (n : Nat) : natChars n ≠ [] := by
  unfold natChars
  by_cases h : n = 0
  · rw [if_pos h]; simp
  · rw [if_neg h]
    simp [Nat.digits_ne_nil_iff_ne_zero.mpr h]

theorem span_digits (xs : List Char) (rest : List Char)
    (hxs : ∀ c ∈ xs, c.isDigit = true) (hrest : goodRest rest) :
    (xs ++ rest).takeWhile Char.isDigit = xs ∧
      (xs ++ rest).dropWhile Char.isDigit = rest := by
  induction xs with
  | nil =>
    simp only [List.nil_append]
    cases rest with
    | nil => simp
    | cons c t =>
      have hc : c.isDigit = false := hrest
      simp [List.takeWhile, List.dropWhile, hc]
  | cons c t ih =>
    have hc : c.isDigit = true := hxs c (by simp)
    have ih2 := ih fun x hx => hxs x (by simp [hx])
    simp [List.takeWhile, List.dropWhile, hc, ih2.1, ih2.2]

theorem foldr_ofDigits (L : List Nat) (hL : ∀ d ∈ L, d < 10) :
    L.foldr (fun d a => 10 * a + charDigit (digitCh d)) 0 = Nat.ofDigits 10 L := by
  induction L with
  | nil => simp [Nat.ofDigits]
  | cons d t ih =>
    have hd : d < 10 := hL d (by simp)
    have iht := ih fun x hx => hL x (by simp [hx])
    simp only [List.foldr_cons, iht, charDigit_digitCh d hd, Nat.ofDigits_cons]
    ring

theorem foldl_natChars (n : Nat) :
    (natChars n).foldl (fun a c => 10 * a + charDigit c) 0 = n := by
  unfold natChars
  by_cases h : n = 0
  · rw [if_pos h]; subst h; decide
  · rw [if_neg h]
    rw [List.map_reverse, List.foldl_reverse]
    have : ((Nat.digits 10 n).map digitCh).foldr (fun x y => 10 * y + charDigit x) 0 =
        (Nat.digits 10 n).foldr (fun d a => 10 * a + charDigit (digitCh d)) 0 := by
      rw [List.foldr_map]
    rw [this, foldr_ofDigits _ (fun d hd => Nat.digits_lt_base (by norm_num) hd)]
    exact Nat.ofDigits_digits 10 n

theorem parseNatFrom_natChars (n : Nat) (rest : List Char) (hrest : goodRest rest) :
    parseNatFrom (natChars n ++ rest) = some (n, rest) := by
  obtain ⟨htake, hdrop⟩ := span_digits (natChars n) rest (natChars_digits n) hrest
  unfold parseNatFrom
  rw [htake, hdrop]
  rw [if_neg (by simp [natChars_ne_nil n])]
  rw [foldl_natChars]

theorem isDigit_ne_dash {c : Char} (h : c.isDigit = true) : ¬ c = '-' := by
  intro he; rw [he] at h; exact absurd h (by decide)

theorem parseNum_renderInt (i : Int) (rest : List Char) (hrest : goodRest rest) :
    parseNum (renderInt i ++ rest) = some (i, rest) := by
  cases i with
  | ofNat n =>
    show parseNum (natChars n ++ rest) = some ((n : Int), rest)
    obtain ⟨d, ds, hcons⟩ := List.exists_cons_of_ne_nil (natChars_ne_nil n)
    have hd : d.isDigit = true := natChars_digits n d (by rw [hcons]; simp)
    rw [hcons, List.cons_append, parseNum]
    rw [if_neg (isDigit_ne_dash hd), ← List.cons_append, ← hcons,
      parseNatFrom_natChars n rest hrest]
    rfl
  | negSucc n =>
    show parseNum ('-' :: (natChars (n + 1) ++ rest)) = some (Int.negSucc n, rest)
    rw [parseNum, if_pos rfl, parseNatFrom_natChars (n + 1) rest hrest]
    simp [Int.negSucc_eq]

/-! The mutual render/parse round trip. -/

theorem isDigit_ne_of {c : Char} (h : c.isDigit = true) (L : Char) (hL : L.isDigit = false) :
    ¬ c = L := by
  intro he; rw [he] at h; rw [h] at hL; exact absurd hL (by simp)

theorem isWs_of_isDigit {c : Char} (h : c.isDigit = true) : isWs c = false := by
  simp only [isWs, Bool.or_eq_false_iff, decide_eq_false_iff_not]
  exact ⟨⟨⟨isDigit_ne_of h ' ' (by decide), isDigit_ne_of h '\t' (by decide)⟩,
    isDigit_ne_of h '\n' (by decide)⟩, isDigit_ne_of h '\r' (by decide)⟩

/-- Every rendered value starts with a non-whitespace character that is not
a closing bracket. -/
theorem renderJ_head (v : JVal) :
    ∃ c t, renderJ v = c :: t ∧ isWs c = false ∧ ¬ c = ']' := by
  cases v with
  | jnull => exact ⟨'n', _, rfl, by decide, by decide⟩
  | jbool b => cases b with
    | true => exact ⟨'t', _, rfl, by decide, by decide⟩
    | false => exact ⟨'f', _, rfl, by decide, by decide⟩
  | jnum i =>
    cases i with
    | ofNat n =>
      obtain ⟨d, ds, hcons⟩ := List.exists_cons_of_ne_nil (natChars_ne_nil n)
      have hd : d.isDigit = true := natChars_digits n d (by rw [hcons]; simp)
      exact ⟨d, ds, hcons, isWs_of_isDigit hd, isDigit_ne_of hd ']' (by decide)⟩
    | negSucc n => exact ⟨'-', _, rfl, by decide, by decide⟩
  | jstr s => exact ⟨'"', _, rfl, by decide, by decide⟩
  | jarr vs => exact ⟨'[', _, rfl, by decide, by decide⟩
  | jobj fs => exact ⟨Char.ofNat 123, _, rfl, by decide, by decide⟩

theorem renderElems_cons (v : JVal) (vs : List JVal) {c : Char} {t : List Char}
    (h : renderJ v = c :: t) : ∃ et, renderElems (v :: vs) = c :: et := by
  cases vs with
  | nil => exact ⟨t, h⟩
  | cons v2 vs' => exact ⟨t ++ ',' :: renderElems (v2 :: vs'), by simp [renderElems, h]⟩

theorem renderMembers_cons (k : List Char) (v : JVal) (fs : List (List Char × JVal)) :
    ∃ mt, renderMembers ((k, v) :: fs) = '"' :: mt := by
  cases fs with
  | nil => exact ⟨_, rfl⟩
  | cons f2 fs' =>
    exact ⟨(escChars k ++ '"' :: ':' :: renderJ v) ++ ',' :: renderMembers (f2 :: fs'),
      by simp [renderMembers]⟩

theorem skipWs_cons {c : Char} (h : isWs c = false) (t : List Char) :
    skipWs (c :: t) = c :: t := by
  rw [skipWs.eq_def]
  simp [h]

theorem goodRest_cons {c : Char} (t : List Char) (h : c.isDigit = false) :
    goodRest (c :: t) := h

theorem parseVal_arr (f : Nat) (X : List Char) :
    parseVal (f + 1) ('[' :: X) =
      match skipWs X with
      | d :: rest2 =>
        if d = ']' then some (jarr [], rest2)
        else (parseElems f X).map fun p => (jarr p.1, p.2)
      | [] => none := by
  rw [parseVal.eq_def]
  simp only [skipWs_cons (show isWs '[' = false by decide)]
  simp

theorem parseVal_obj (f : Nat) (X : List Char) :
    parseVal (f + 1) (Char.ofNat 123 :: X) =
      match skipWs X with
      | d :: rest2 =>
        if d = Char.ofNat 125 then some (jobj [], rest2)
        else (parseMembers f X).map fun p => (jobj p.1, p.2)
      | [] => none := by
  rw [parseVal.eq_def]
  simp only [skipWs_cons (show isWs (Char.ofNat 123) = false by decide)]
  simp

theorem parseMembers_succ (f : Nat) (X : List Char) :
    parseMembers (f + 1) ('"' :: X) =
      match parseStr X with
      | none => none
      | some (k, r2) =>
        match skipWs r2 with
        | ':' :: r3 =>
          match parseVal f r3 with
          | none => none
          | some (v, r4) =>
            match skipWs r4 with
            | ',' :: r5 => (parseMembers f r5).map fun p => ((k, v) :: p.1, p.2)
            | d :: r5 => if d = Char.ofNat 125 then some ([(k, v)], r5) else none
            | [] => none
        | _ => none := by
  rw [parseMembers.eq_def]
  simp only [skipWs_cons (show isWs '"' = false by decide)]

theorem parseElems_succ (f : Nat) (X : List Char) :
    parseElems (f + 1) X =
      match parseVal f X with
      | none => none
      | some (v, r) =>
        match skipWs r with
        | ',' :: r2 => (parseElems f r2).map fun p => (v :: p.1, p.2)
        | ']' :: r2 => some ([v], r2)
        | _ => none := by
  rw [parseElems.eq_def]

/-- The parser is a left inverse of the renderer: with enough fuel,
parsing a rendered value (followed by anything that cannot extend it)
returns exactly that value and the remainder. -/
theorem parse_render (fuel : Nat) :
    (∀ (v : JVal) (rest : List Char), goodRest rest →
       2 * ((renderJ v).length + rest.length) < fuel →
       parseVal fuel (renderJ v ++ rest) = some (v, rest)) ∧
    (∀ (k : List Char) (v : JVal) (fs : List (List Char × JVal)) (rest : List Char),
       2 * ((renderMembers ((k, v) :: fs)).length + 1 + rest.length) < fuel →
       parseMembers fuel (renderMembers ((k, v) :: fs) ++ Char.ofNat 125 :: rest) =
         some ((k, v) :: fs, rest)) ∧
    (∀ (v : JVal) (vs : List JVal) (rest : List Char),
       2 * ((renderElems (v :: vs)).length + 1 + rest.length) + 1 < fuel →
       parseElems fuel (renderElems (v :: vs) ++ ']' :: rest) = some (v :: vs, rest)) := by
  induction fuel with
  | zero =>
    exact ⟨fun v rest _ h => absurd h (by omega),
      fun k v fs rest h => absurd h (by omega),
      fun v vs rest h => absurd h (by omega)⟩
  | succ f ih =>
    obtain ⟨IHP, IHQ, IHR⟩ := ih
    refine ⟨?_, ?_, ?_⟩
    · -- values
      intro v rest hrest hlen
      cases v with
      | jnull =>
        show parseVal (f + 1) (['n', 'u', 'l', 'l'] ++ rest) = _
        rw [parseVal.eq_def]
        simp [skipWs, isWs]
      | jbool b =>
        cases b with
        | true =>
          show parseVal (f + 1) (['t', 'r', 'u', 'e'] ++ rest) = _
          rw [parseVal.eq_def]
          simp [skipWs, isWs]
        | false =>
          show parseVal (f + 1) (['f', 'a', 'l', 's', 'e'] ++ rest) = _
          rw [parseVal.eq_def]
          simp [skipWs, isWs]
      | jnum i =>
        cases i with
        | ofNat n =>
          show parseVal (f + 1) (natChars n ++ rest) = _
          obtain ⟨d, ds, hcons⟩ := List.exists_cons_of_ne_nil (natChars_ne_nil n)
          have hd : d.isDigit = true := natChars_digits n d (by rw [hcons]; simp)
          rw [hcons, List.cons_append, parseVal.eq_def]
          simp only [skipWs, isWs_of_isDigit hd, Bool.false_eq_true, if_false]
          rw [if_neg (isDigit_ne_of hd (Char.ofNat 123) (by decide)),
            if_neg (isDigit_ne_of hd '[' (by decide)),
            if_neg (isDigit_ne_of hd '"' (by decide)),
            if_neg (isDigit_ne_of hd 't' (by decide)),
            if_neg (isDigit_ne_of hd 'f' (by decide)),
            if_neg (isDigit_ne_of hd 'n' (by decide)),
            if_pos (Or.inr hd)]
          rw [← List.cons_append, ← hcons]
          rw [show natChars n = renderInt (Int.ofNat n) from rfl, parseNum_renderInt _ _ hrest]
          rfl
        | negSucc n =>
          show parseVal (f + 1) (('-' :: natChars (n + 1)) ++ rest) = _
          rw [List.cons_append, parseVal.eq_def]
          simp only [skipWs_cons (show isWs '-' = false by decide)]
          rw [if_neg (show ¬ '-' = Char.ofNat 123 by decide),
            if_neg (show ¬ '-' = '[' by decide),
            if_neg (show ¬ '-' = '"' by decide),
            if_neg (show ¬ '-' = 't' by decide),
            if_neg (show ¬ '-' = 'f' by decide),
            if_neg (show ¬ '-' = 'n' by decide)]
          simp only [true_or, if_true]
          rw [← List.cons_append]
          rw [show '-' :: natChars (n + 1) = renderInt (Int.negSucc n) from rfl,
            parseNum_renderInt _ _ hrest]
          rfl
      | jstr s =>
        show parseVal (f + 1) (('"' :: (escChars s ++ ['"'])) ++ rest) = _
        simp only [List.cons_append, List.append_assoc, List.singleton_append]
        rw [parseVal.eq_def]
        simp [skipWs, isWs, parseStr_escChars]
      | jarr vs =>
        cases vs with
        | nil =>
          show parseVal (f + 1) (('[' :: (renderElems [] ++ [']'])) ++ rest) = _
          simp only [renderElems, List.cons_append, List.nil_append, List.singleton_append]
          rw [parseVal.eq_def]
          simp [skipWs, isWs]
        | cons v0 vs' =>
          obtain ⟨c, ct, hct, hws, hne⟩ := renderJ_head v0
          obtain ⟨et, het⟩ := renderElems_cons v0 vs' hct
          have hlen2 : 2 * ((renderElems (v0 :: vs')).length + 1 + rest.length) + 1 < f := by
            simp only [renderJ, List.length_cons, List.length_append,
              List.length_singleton] at hlen
            omega
          show parseVal (f + 1) (('[' :: (renderElems (v0 :: vs') ++ [']'])) ++ rest) = _
          simp only [List.cons_append, List.append_assoc, List.singleton_append,
            List.nil_append]
          rw [parseVal_arr]
          rw [show renderElems (v0 :: vs') ++ ']' :: rest = c :: (et ++ ']' :: rest) by
            rw [← List.cons_append, ← het]]
          rw [skipWs_cons hws]
          simp only [if_neg hne]
          rw [← List.cons_append, ← het, IHR v0 vs' rest hlen2]
          rfl
      | jobj fs =>
        cases fs with
        | nil =>
          show parseVal (f + 1)
              ((Char.ofNat 123 :: (renderMembers [] ++ [Char.ofNat 125])) ++ rest) = _
          simp only [renderMembers, List.cons_append, List.nil_append, List.singleton_append]
          rw [parseVal.eq_def]
          simp [skipWs, isWs]
        | cons f0 fs' =>
          obtain ⟨k0, v0⟩ := f0
          obtain ⟨mt, hmt⟩ := renderMembers_cons k0 v0 fs'
          have hlen2 : 2 * ((renderMembers ((k0, v0) :: fs')).length + 1 + rest.length) < f := by
            simp only [renderJ, List.length_cons, List.length_append,
              List.length_singleton] at hlen
            omega
          show parseVal (f + 1)
              ((Char.ofNat 123 :: (renderMembers ((k0, v0) :: fs') ++ [Char.ofNat 125])) ++
                rest) = _
          simp only [List.cons_append, List.append_assoc, List.singleton_append,
            List.nil_append]
          rw [parseVal_obj]
          rw [show renderMembers ((k0, v0) :: fs') ++ Char.ofNat 125 :: rest =
              '"' :: (mt ++ Char.ofNat 125 :: rest) by rw [← List.cons_append, ← hmt]]
          rw [skipWs_cons (show isWs '"' = false by decide)]
          simp only [if_neg (show ¬ '"' = Char.ofNat 125 by decide)]
          rw [← List.cons_append, ← hmt, IHQ k0 v0 fs' rest hlen2]
          rfl
    · -- object members
      intro k v fs rest hlen
      cases fs with
      | nil =>
        show parseMembers (f + 1)
            (('"' :: (escChars k ++ '"' :: ':' :: renderJ v)) ++ Char.ofNat 125 :: rest) = _
        simp only [List.cons_append, List.append_assoc]
        rw [parseMembers_succ]
        rw [parseStr_escChars k (':' :: (renderJ v ++ Char.ofNat 125 :: rest))]
        simp only [skipWs_cons (show isWs ':' = false by decide)]
        have hlv : 2 * ((renderJ v).length + (Char.ofNat 125 :: rest).length) < f := by
          simp only [renderMembers, List.length_cons, List.length_append] at hlen
          simp only [List.length_cons]
          omega
        rw [IHP v (Char.ofNat 125 :: rest) (goodRest_cons _ (by decide)) hlv]
        simp only [skipWs_cons (show isWs (Char.ofNat 125) = false by decide)]
        simp
      | cons f2 fs' =>
        obtain ⟨k2, v2⟩ := f2
        show parseMembers (f + 1)
            ((('"' :: (escChars k ++ '"' :: ':' :: renderJ v)) ++
              ',' :: renderMembers ((k2, v2) :: fs')) ++ Char.ofNat 125 :: rest) = _
        simp only [List.cons_append, List.append_assoc]
        rw [parseMembers_succ]
        rw [parseStr_escChars k
          (':' :: (renderJ v ++ ',' :: (renderMembers ((k2, v2) :: fs') ++
            Char.ofNat 125 :: rest)))]
        simp only [skipWs_cons (show isWs ':' = false by decide)]
        have hlv : 2 * ((renderJ v).length +
            (',' :: (renderMembers ((k2, v2) :: fs') ++ Char.ofNat 125 :: rest)).length) < f := by
          simp only [renderMembers, List.length_cons, List.length_append] at hlen
          simp only [List.length_cons, List.length_append]
          omega
        rw [IHP v _ (goodRest_cons _ (by decide)) hlv]
        simp only [skipWs_cons (show isWs ',' = false by decide)]
        have hlm : 2 * ((renderMembers ((k2, v2) :: fs')).length + 1 + rest.length) < f := by
          simp only [renderMembers, List.length_cons, List.length_append] at hlen ⊢
          omega
        rw [IHQ k2 v2 fs' rest hlm]
        rfl
    · -- array elements
      intro v vs rest hlen
      cases vs with
      | nil =>
        show parseElems (f + 1) (renderJ v ++ ']' :: rest) = _
        rw [parseElems_succ]
        have hlv : 2 * ((renderJ v).length + (']' :: rest).length) < f := by
          simp only [renderElems] at hlen
          simp only [List.length_cons]
          omega
        rw [IHP v (']' :: rest) (goodRest_cons _ (by decide)) hlv]
        simp only [skipWs_cons (show isWs ']' = false by decide)]
      | cons v2 vs' =>
        show parseElems (f + 1)
            ((renderJ v ++ ',' :: renderElems (v2 :: vs')) ++ ']' :: rest) = _
        simp only [List.cons_append, List.append_assoc]
        rw [parseElems_succ]
        have hlv : 2 * ((renderJ v).length +
            (',' :: (renderElems (v2 :: vs') ++ ']' :: rest)).length) < f := by
          simp only [renderElems, List.length_cons, List.length_append] at hlen
          simp only [List.length_cons, List.length_append]
          omega
        rw [IHP v _ (goodRest_cons _ (by decide)) hlv]
        simp only [skipWs_cons (show isWs ',' = false by decide)]
        have hle : 2 * ((renderElems (v2 :: vs')).length + 1 + rest.length) + 1 < f := by
          simp only [renderElems, List.length_cons, List.length_append] at hlen ⊢
          omega
        rw [IHR v2 vs' rest hle]
        rfl

/-! Decoding the rendered manifest object. -/

theorem layerFromJVal_toJVal (l : Layer) :
    layerFromJVal defaultLayer (layerToJVal l) = some l := rfl

theorem layersFromArr_toJVal (ls : List Layer) :
    layersFromArr (ls.map layerToJVal) = some ls := by
  induction ls with
  | nil => rfl
  | cons l t ih => simp [layersFromArr, layerFromJVal_toJVal, ih]

theorem mSet_sv (cur : Manifest) (i : Int) :
    manifestSetField cur ("schemaVersion".data, jnum i) =
      some { cur with SchemaVersion := i } := rfl

theorem mSet_mt (cur : Manifest) (s : List Char) :
    manifestSetField cur ("mediaType".data, jstr s) =
      some { cur with MediaType := ⟨s⟩ } := rfl

theorem mSet_config (cur : Manifest) (v : JVal) :
    manifestSetField cur ("config".data, v) =
      (layerFromJVal cur.Config v).map fun l => { cur with Config := l } := rfl

theorem mSet_layers (cur : Manifest) (vs : List JVal) :
    manifestSetField cur ("layers".data, jarr vs) =
      (layersFromArr vs).map fun ls => { cur with Layers := ls } := rfl

theorem mSet_apple (cur : Manifest) (b : Bool) :
    manifestSetField cur ("IsAppleFoundationModel".data, jbool b) =
      some { cur with IsAppleFoundationModel := b } := rfl

theorem mSet_config_default (cur : Manifest) (l : Layer) (hc : cur.Config = defaultLayer) :
    manifestSetField cur ("config".data, layerToJVal l) = some { cur with Config := l } := by
  rw [mSet_config, hc, layerFromJVal_toJVal]
  rfl

theorem mSet_layers_render (cur : Manifest) (ls : List Layer) :
    manifestSetField cur ("layers".data, jarr (ls.map layerToJVal)) =
      some { cur with Layers := ls } := by
  rw [mSet_layers, layersFromArr_toJVal]
  rfl

theorem manifestFromJVal_toJVal (sv : Int) (mt : String) (config : Layer)
    (layers : List Layer) (apple : Bool) :
    manifestFromJVal (manifestToJVal sv mt config layers apple) =
      some { emptyManifest with
              SchemaVersion := sv, MediaType := mt, Config := config,
              Layers := layers, IsAppleFoundationModel := apple } := by
  rw [show manifestFromJVal (manifestToJVal sv mt config layers apple) =
      List.foldlM manifestSetField emptyManifest
        [("schemaVersion".data, jnum sv), ("mediaType".data, jstr mt.data),
         ("config".data, layerToJVal config),
         ("layers".data, jarr (layers.map layerToJVal)),
         ("IsAppleFoundationModel".data, jbool apple)] from rfl]
  rw [List.foldlM_cons, mSet_sv]
  simp only [Option.bind_eq_bind, Option.some_bind]
  rw [List.foldlM_cons, mSet_mt]
  simp only [Option.bind_eq_bind, Option.some_bind]
  rw [List.foldlM_cons, mSet_config_default _ config rfl]
  simp only [Option.bind_eq_bind, Option.some_bind]
  rw [List.foldlM_cons, mSet_layers_render]
  simp only [Option.bind_eq_bind, Option.some_bind]
  rw [List.foldlM_cons, mSet_apple]
  simp only [Option.bind_eq_bind, Option.some_bind]
  rw [List.foldlM_nil]
  rfl

/-- Decoding what `WriteManifest` encodes recovers the JSON-visible fields
exactly. -/
theorem decodeManifest_render (sv : Int) (mt : String) (config : Layer)
    (layers : List Layer) (apple : Bool) :
    decodeManifest (renderManifestFile sv mt config layers apple) =
      some { emptyManifest with
              SchemaVersion := sv, MediaType := mt, Config := config,
              Layers := layers, IsAppleFoundationModel := apple } := by
  unfold decodeManifest renderManifestFile
  rw [(parse_render (2 * (renderJ (manifestToJVal sv mt config layers apple) ++
      ['\n']).length + 8)).1 (manifestToJVal sv mt config layers apple) ['\n']
      (goodRest_cons _ (by decide))
      (by simp only [List.length_append, List.length_singleton]; omega)]
  exact manifestFromJVal_toJVal sv mt config layers apple

theorem fsRead_fsWrite (fs : FS) (p : List String) (c : List Char) :
    fsRead (fsWrite fs p c) p = some c := by
  simp [fsRead, fsWrite, List.find?]

/-- C1: write-then-read round trip.  For a fully-qualified name, writing a
manifest with arbitrary config and layers succeeds, and parsing it back
returns a manifest whose `Config` is the given config and whose `Layers`
are the given layers in order (with `schemaVersion` 2, the fixed media
type, the written file's path and raw-byte digest attached). -/
theorem claim_C1 (n : Name) (config : Layer) (layers : List Layer) (fs : FS)
    (h : n.IsFullyQualified = true) :
    (WriteManifest n config layers fs).1 = .ok () ∧
    ParseNamedManifest n (WriteManifest n config layers fs).2 =
      .ok { SchemaVersion := 2,
            MediaType := "application/vnd.docker.distribution.manifest.v2+json",
            Config := config, Layers := layers, IsAppleFoundationModel := false,
            filepath := n.filepathSegs,
            digest := computeDigest (renderManifestFile 2
              "application/vnd.docker.distribution.manifest.v2+json" config layers false) } := by
  have hw : WriteManifest n config layers fs =
      (.ok (), fsWrite (mkdirAll fs (ancestorsOf n.filepathSegs)) n.filepathSegs
        (renderManifestFile 2 "application/vnd.docker.distribution.manifest.v2+json"
          config layers false)) := by
    unfold WriteManifest Name.filepathE
    rw [if_pos h]
  refine ⟨by rw [hw], ?_⟩
  rw [hw]
  unfold ParseNamedManifest
  rw [h]
  simp only [Bool.not_true, Bool.false_eq_true, if_false]
  rw [show fsRead (fsWrite (mkdirAll fs (ancestorsOf n.filepathSegs)) n.filepathSegs
      (renderManifestFile 2 "application/vnd.docker.distribution.manifest.v2+json"
        config layers false)) n.filepathSegs = some _ from fsRead_fsWrite _ _ _]
  simp only [decodeManifest_render]

/-- C1 witness: the concrete scenario of the spec (§8). -/
theorem claim_C1_witness :
    (WriteManifest ⟨"library", "demo", "latest"⟩ ⟨"cfg", "sha256:aa", 10⟩
        [⟨"weights", "sha256:bb", 2048⟩] emptyFS).1 = .ok () ∧
    ParseNamedManifest ⟨"library", "demo", "latest"⟩
        (WriteManifest ⟨"library", "demo", "latest"⟩ ⟨"cfg", "sha256:aa", 10⟩
          [⟨"weights", "sha256:bb", 2048⟩] emptyFS).2 =
      .ok { SchemaVersion := 2,
            MediaType := "application/vnd.docker.distribution.manifest.v2+json",
            Config := ⟨"cfg", "sha256:aa", 10⟩,
            Layers := [⟨"weights", "sha256:bb", 2048⟩], IsAppleFoundationModel := false,
            filepath := ["library", "demo", "latest"],
            digest := computeDigest (renderManifestFile 2
              "application/vnd.docker.distribution.manifest.v2+json" ⟨"cfg", "sha256:aa", 10⟩
              [⟨"weights", "sha256:bb", 2048⟩] false) } :=
  claim_C1 ⟨"library", "demo", "latest"⟩ ⟨"cfg", "sha256:aa", 10⟩
    [⟨"weights", "sha256:bb", 2048⟩] emptyFS (by decide)
